import Mathlib

/-!
Shallow embedding of `src/unzip_cx/cli.py`, a batch archive-extraction CLI.

Modelling conventions:
* A Python string is a `List Char` (`Str` below).
* A filesystem path is its list of components (`FsPath`); the string form
  used by Python for sorting (`str(path)`) is the components joined by '/'
  (`joinPath`).
* The filesystem is a finite list of entries `{path, isDir}` (`Fs`);
  `Path.exists()` is membership by path, `mkdir(parents=True, exist_ok=True)`
  adds the missing nonempty ancestors as directories, `shutil.rmtree`
  removes a whole subtree and `unlink` removes a single entry.
* The external archive library (`shutil.unpack_archive`) is an oracle
  `FsPath → FsPath → Fs → Bool × Fs` returning success and the new
  filesystem; `shutil.get_unpack_formats` is abstracted as a list of known
  extensions, sorted by decreasing length as `SUPPORTED_EXTENSIONS` is.
* The interactive prompt of the `ask` policy is an oracle `Nat → Choice`
  consulted at an increasing prompt index (the scripted prompter of the
  spec); `prompt_choice` re-asks until the answer is valid, so the oracle
  directly returns a valid `Choice`.
* The unbounded `while True` rename loop is given fuel `fs.length + 1`;
  `renameLoop_isSome` proves this fuel is always sufficient, so the
  embedding is total without changing the loop's behaviour.
-/

namespace UnzipCx

/-- A Python string: a finite sequence of characters. -/
abbrev Str := List Char

/-- A filesystem path, as its list of components. -/
abbrev FsPath := List Str

/-- The string form of a path (`str(path)`): components joined by '/'. -/
def joinPath (p : FsPath) : Str := (p.intersperse ['/']).flatten

/-- Boolean comparison used by `sorted` on `pathlib` paths: lexicographic
order of the path strings. -/
def pathLe (p q : FsPath) : Bool := decide (joinPath p ≤ joinPath q)

/-- The collision policies of `--on-existing` (`ask|skip|overwrite|rename`). -/
inductive Policy where
  | ask
  | skip
  | overwrite
  | rename
deriving DecidableEq, Repr

/-- The six answers accepted by the `ask` prompt in `handle_existing_dest`. -/
inductive Choice where
  | skip
  | overwrite
  | rename
  | skipAll
  | overwriteAll
  | renameAll
deriving DecidableEq, Repr

/-- Whether the answer is one of the `-all` escalations
(`choice.endswith("-all")`). -/
def Choice.isAll : Choice → Bool
  | .skipAll | .overwriteAll | .renameAll => true
  | _ => false

/-- The base policy denoted by a choice (`choice.replace("-all", "")`). -/
def Choice.base : Choice → Policy
  | .skip | .skipAll => .skip
  | .overwrite | .overwriteAll => .overwrite
  | .rename | .renameAll => .rename

/-- The run configuration dataclass `ExtractionPlan`. -/
structure ExtractionPlan where
  input_dir : FsPath
  output_dir : FsPath
  recursive : Bool
  on_existing : Policy
  dry_run : Bool
  pattern : Str

/- The counters dataclass `ExtractionResult` is folded into `BatchState`
below (fields `extracted`, `skipped`, `failed`). -/

/-- Decimal digits of `n`, most significant first, with `fuel` bounding the
recursion depth; models Python's decimal rendering of an `int`. -/
def decAux : Nat → Nat → List Char
  | 0, _ => []
  | fuel + 1, n =>
    if n < 10 then [Nat.digitChar n]
    else decAux fuel (n / 10) ++ [Nat.digitChar (n % 10)]

/-- Decimal rendering of a natural number, as in the f-string
interpolation of the rename counter. -/
def decRepr (n : Nat) : Str := decAux (n + 1) n

/-- Parse a decimal string back to a number; used only to prove that
`decRepr` is injective. -/
def parseDec (s : Str) : Nat := s.foldl (fun acc c => acc * 10 + (c.toNat - 48)) 0

/-- Index of the last occurrence of `c` in `s`, if any
(Python `str.rfind`, with -1 modelled as `none`). -/
def rfindIdx (c : Char) : Str → Option Nat
  | [] => none
  | a :: rest =>
    match rfindIdx c rest with
    | some i => some (i + 1)
    | none => if a = c then some 0 else none

/-- `pathlib.PurePath.stem`: the final component without its last suffix;
the name is returned unchanged when the last dot is absent, leading, or
trailing. -/
def pyStem (name : Str) : Str :=
  match rfindIdx '.' name with
  | some i => if 0 < i ∧ i < name.length - 1 then name.take i else name
  | none => name

/-- Python's slice `s[: -m]` (empty when `m = 0`, since `-0` is `0`). -/
def pySliceUptoNeg (s : Str) (m : Nat) : Str :=
  if m = 0 then [] else s.take (s.length - m)

/-- `archive_stem` (cli.py lines 119-125): strip the first matching
extension from the (case-lowered) file name, scanning the extension list in
its given order; fall back to `path.stem` when nothing matches.
The extension list plays the role of `SUPPORTED_EXTENSIONS`, which is
sorted by decreasing length. -/
def archive_stem (exts : List Str) (path : FsPath) : Str :=
  let name := path.getLastD []
  let lower_name := name.map Char.toLower
  match exts.find? (fun e => e.isSuffixOf lower_name) with
  | some e => pySliceUptoNeg name e.length
  | none => pyStem name

/-- Whether a file name ends (case-insensitively) with a known archive
extension: `any(lower_name.endswith(ext) for ext in SUPPORTED_EXTENSIONS)`. -/
def hasArchiveSuffix (exts : List Str) (p : FsPath) : Bool :=
  exts.any (fun e => e.isSuffixOf ((p.getLastD []).map Char.toLower))

/-- One entry yielded by the glob scan of `collect_archives`:
a path and whether `p.is_file()` holds. -/
structure DirEntry where
  path : FsPath
  isFile : Bool
deriving DecidableEq, Repr

/-- `collect_archives` (cli.py lines 128-136), with the glob enumeration
(`input_dir.glob`/`rglob`, an OS service) given as the list `globbed` of
yielded entries: keep regular files, keep those with a known archive
extension, and return them sorted by path. -/
def collect_archives (exts : List Str) (globbed : List DirEntry) : List FsPath :=
  let candidates := globbed.filter (fun en => en.isFile)
  let archives := (candidates.filter (fun en => hasArchiveSuffix exts en.path)).map
    (fun en => en.path)
  archives.mergeSort pathLe

/-- One filesystem node: its path and whether it is a directory. -/
structure FsEntry where
  path : FsPath
  isDir : Bool
deriving DecidableEq, Repr

/-- The filesystem, as the finite list of its nodes. -/
abbrev Fs := List FsEntry

/-- `Path.exists()`: some node has this path. -/
def existsPath (fs : Fs) (p : FsPath) : Bool :=
  fs.any (fun en => decide (en.path = p))

/-- `dest.mkdir(parents=True, exist_ok=True)`: add every nonempty ancestor
of `dest` (including `dest` itself) that is not yet present, as a
directory. -/
def mkdirParents (fs : Fs) (dest : FsPath) : Fs :=
  fs ++ ((dest.inits.filter (fun q => !q.isEmpty && !existsPath fs q)).map
    (fun q => FsEntry.mk q true))

/-- The entries yielded by `dest.iterdir()`: nodes exactly one component
below `dest`. -/
def childrenOf (fs : Fs) (dest : FsPath) : List FsEntry :=
  fs.filter (fun en => decide (en.path.length = dest.length + 1) && decide (dest <+: en.path))

/-- One iteration of the overwrite loop: `shutil.rmtree(child)` for a
directory (drop the whole subtree), `child.unlink()` for a file (drop the
node). -/
def removeChildEntry (fs : Fs) (child : FsEntry) : Fs :=
  if child.isDir then fs.filter (fun en => !(decide (child.path <+: en.path)))
  else fs.filter (fun en => !(decide (en.path = child.path)))

/-- The overwrite branch of `ensure_destination`: delete every child of
`dest` in turn. -/
def clearContents (fs : Fs) (dest : FsPath) : Fs :=
  (childrenOf fs dest).foldl removeChildEntry fs

/-- The candidate path `dest.parent / f"{dest.name}_{counter}"` tried by the
rename branch. -/
def renameCandidate (dest : FsPath) (counter : Nat) : FsPath :=
  dest.dropLast ++ [dest.getLastD [] ++ ('_' :: decRepr counter)]

/-- The `while True` search of the rename branch, with explicit fuel:
try `counter`, `counter + 1`, ... until a candidate does not exist.
`renameLoop_isSome` below shows fuel `fs.length + 1` always suffices. -/
def renameLoop (fs : Fs) (dest : FsPath) : Nat → Nat → Option FsPath
  | 0, _ => none
  | fuel + 1, counter =>
    if existsPath fs (renameCandidate dest counter) then
      renameLoop fs dest fuel (counter + 1)
    else some (renameCandidate dest counter)

/-- `ensure_destination` (cli.py lines 139-164): returns the resolved
destination (`none` models Python's `None`, i.e. skip) and the filesystem
after the side effects (directory creation / content deletion). -/
def ensure_destination (fs : Fs) (dest : FsPath) (on_existing : Policy) :
    Option FsPath × Fs :=
  if existsPath fs dest = false then (some dest, mkdirParents fs dest)
  else
    match on_existing with
    | Policy.skip => (none, fs)
    | Policy.overwrite => (some dest, clearContents fs dest)
    | Policy.rename =>
      match renameLoop fs dest (fs.length + 1) 1 with
      | some c => (some c, mkdirParents fs c)
      | none => (none, fs)
    | Policy.ask => (none, fs)

/-- `handle_existing_dest` (cli.py lines 167-182): resolve one destination,
prompting only when the destination exists and the current policy is `ask`;
returns the decision, the policy for the next item, the filesystem after
side effects, and the next prompt index. -/
def handle_existing_dest (prompts : Nat → Choice) (fs : Fs) (promptIdx : Nat)
    (dest : FsPath) (on_existing : Policy) : Option FsPath × Policy × Fs × Nat :=
  if existsPath fs dest = false ∨ on_existing ≠ Policy.ask then
    let r := ensure_destination fs dest on_existing
    (r.1, on_existing, r.2, promptIdx)
  else
    let choice := prompts promptIdx
    if choice.isAll then
      let r := ensure_destination fs dest choice.base
      (r.1, choice.base, r.2, promptIdx + 1)
    else
      let r := ensure_destination fs dest choice.base
      (r.1, on_existing, r.2, promptIdx + 1)

/-- The mutable state of the `extract_archives` loop: the three counters of
`ExtractionResult`, the current collision policy, the filesystem, the next
prompt index, and an instrumentation counter of extractor invocations. -/
structure BatchState where
  extracted : Nat
  skipped : Nat
  failed : Nat
  policy : Policy
  fs : Fs
  promptIdx : Nat
  extractorCalls : Nat
deriving DecidableEq, Repr

/-- The external extractor (`shutil.unpack_archive`): given archive path,
destination and filesystem, reports success and the new filesystem. -/
abbrev Extractor := FsPath → FsPath → Fs → Bool × Fs

/-- One iteration of the loop body of `extract_archives`
(cli.py lines 189-209). -/
def stepArchive (exts : List Str) (extractor : Extractor) (prompts : Nat → Choice)
    (plan : ExtractionPlan) (s : BatchState) (archive : FsPath) : BatchState :=
  let stem := archive_stem exts archive
  let dest := plan.output_dir ++ [stem]
  let h := handle_existing_dest prompts s.fs s.promptIdx dest s.policy
  match h.1 with
  | none =>
    { s with skipped := s.skipped + 1, policy := h.2.1,
             fs := h.2.2.1, promptIdx := h.2.2.2 }
  | some d =>
    if plan.dry_run then
      { s with extracted := s.extracted + 1, policy := h.2.1,
               fs := h.2.2.1, promptIdx := h.2.2.2 }
    else
      let r := extractor archive d h.2.2.1
      if r.1 then
        { s with extracted := s.extracted + 1, policy := h.2.1, fs := r.2,
                 promptIdx := h.2.2.2, extractorCalls := s.extractorCalls + 1 }
      else
        { s with failed := s.failed + 1, policy := h.2.1, fs := r.2,
                 promptIdx := h.2.2.2, extractorCalls := s.extractorCalls + 1 }

/-- `extract_archives` (cli.py lines 185-211): fold the loop body over the
archives in order. -/
def extract_archives (exts : List Str) (extractor : Extractor)
    (prompts : Nat → Choice) (plan : ExtractionPlan)
    (s : BatchState) (archives : List FsPath) : BatchState :=
  archives.foldl (stepArchive exts extractor prompts plan) s

/-- The state at the top of `extract_archives`: zero counters, the plan's
policy, the given filesystem, and no prompts or extractor calls yet. -/
def initState (plan : ExtractionPlan) (fs : Fs) : BatchState :=
  { extracted := 0, skipped := 0, failed := 0, policy := plan.on_existing,
    fs := fs, promptIdx := 0, extractorCalls := 0 }

/-- `main` (cli.py lines 263-287) after the plan is built: check the input
directory, collect archives, create the output base directory, run the
batch, and map the result to the exit status. Returns the exit status and
the final batch state. -/
def mainRun (exts : List Str) (extractor : Extractor) (prompts : Nat → Choice)
    (plan : ExtractionPlan) (fs0 : Fs) (globbed : List DirEntry) :
    Nat × BatchState :=
  if existsPath fs0 plan.input_dir = false then (2, initState plan fs0)
  else
    let archives := collect_archives exts globbed
    if archives.isEmpty then (0, initState plan fs0)
    else
      let fs1 := mkdirParents fs0 plan.output_dir
      let r := extract_archives exts extractor prompts plan (initState plan fs1) archives
      (if r.failed = 0 then 0 else 1, r)

/-! ### Helper lemmas -/

/-- `parseDec` reads back what `decAux` writes, as long as the fuel covers
the input. -/
theorem parseDec_decAux : ∀ fuel n, n < fuel → parseDec (decAux fuel n) = n := by
  intro fuel
  induction fuel with
  | zero => intro n h; omega
  | succ fuel ih =>
    intro n h
    rw [decAux]
    by_cases h10 : n < 10
    · simp only [if_pos h10]
      have : ∀ m, m < 10 → (Nat.digitChar m).toNat - 48 = m := by decide
      simp [parseDec, List.foldl, this n h10]
    · simp only [if_neg h10]
      have hdiv : n / 10 < fuel := by
        have : n / 10 < n := Nat.div_lt_self (by omega) (by omega)
        omega
      have hmod : (Nat.digitChar (n % 10)).toNat - 48 = n % 10 := by
        have : ∀ m, m < 10 → (Nat.digitChar m).toNat - 48 = m := by decide
        exact this _ (Nat.mod_lt _ (by omega))
      have := ih (n / 10) hdiv
      simp only [parseDec] at this ⊢
      rw [List.foldl_append, this, List.foldl, List.foldl, hmod]
      omega

/-- `parseDec` inverts `decRepr`. -/
theorem parseDec_decRepr (n : Nat) : parseDec (decRepr n) = n :=
  parseDec_decAux (n + 1) n (Nat.lt_succ_self n)

/-- The decimal rendering is injective. -/
theorem decRepr_injective : Function.Injective decRepr := by
  intro a b h
  have := parseDec_decRepr a
  rw [h, parseDec_decRepr] at this
  omega

/-- Distinct counters give distinct rename candidates. -/
theorem renameCandidate_injective (dest : FsPath) :
    Function.Injective (renameCandidate dest) := by
  intro a b h
  unfold renameCandidate at h
  have h1 := List.append_cancel_left h
  have h2 : dest.getLastD [] ++ ('_' :: decRepr a) = dest.getLastD [] ++ ('_' :: decRepr b) := by
    simpa using h1
  have h3 := List.append_cancel_left h2
  have h4 : decRepr a = decRepr b := by simpa using h3
  exact decRepr_injective h4

/-- `existsPath` unfolded to a membership statement. -/
theorem existsPath_iff (fs : Fs) (p : FsPath) :
    existsPath fs p = true ↔ ∃ en ∈ fs, en.path = p := by
  simp [existsPath]

/-- If `renameLoop` answers, the answer is the candidate of the first free
counter at or after the start. -/
theorem renameLoop_eq_some (fs : Fs) (dest : FsPath) :
    ∀ fuel start r, renameLoop fs dest fuel start = some r →
      ∃ n, start ≤ n ∧ n < start + fuel ∧ r = renameCandidate dest n ∧
        existsPath fs (renameCandidate dest n) = false ∧
        ∀ m, start ≤ m → m < n → existsPath fs (renameCandidate dest m) = true := by
  intro fuel
  induction fuel with
  | zero => intro start r h; simp [renameLoop] at h
  | succ fuel ih =>
    intro start r h
    rw [renameLoop] at h
    by_cases hex : existsPath fs (renameCandidate dest start) = true
    · rw [if_pos hex] at h
      obtain ⟨n, h1, h2, h3, h4, h5⟩ := ih (start + 1) r h
      refine ⟨n, by omega, by omega, h3, h4, ?_⟩
      intro m hm1 hm2
      rcases Nat.eq_or_lt_of_le hm1 with heq | hlt
      · rwa [heq] at hex
      · exact h5 m hlt hm2
    · rw [if_neg hex] at h
      refine ⟨start, Nat.le_refl _, by omega, by simpa using h.symm, ?_, ?_⟩
      · simpa using hex
      · intro m hm1 hm2; omega

/-- If `renameLoop` runs out of fuel, every counter it visited was taken. -/
theorem renameLoop_eq_none (fs : Fs) (dest : FsPath) :
    ∀ fuel start, renameLoop fs dest fuel start = none →
      ∀ n, start ≤ n → n < start + fuel →
        existsPath fs (renameCandidate dest n) = true := by
  intro fuel
  induction fuel with
  | zero => intro start _ n h1 h2; omega
  | succ fuel ih =>
    intro start h n h1 h2
    rw [renameLoop] at h
    by_cases hex : existsPath fs (renameCandidate dest start) = true
    · rw [if_pos hex] at h
      rcases Nat.eq_or_lt_of_le h1 with heq | hlt
      · rwa [heq] at hex
      · exact ih (start + 1) h n hlt (by omega)
    · rw [if_neg hex] at h
      simp at h

/-- With fuel `fs.length + 1`, the rename search always finds a free
candidate: the candidates are pairwise distinct, so at most `fs.length` of
them can name existing nodes. -/
theorem renameLoop_isSome (fs : Fs) (dest : FsPath) :
    (renameLoop fs dest (fs.length + 1) 1).isSome = true := by
  cases hloop : renameLoop fs dest (fs.length + 1) 1 with
  | some r => rfl
  | none =>
    exfalso
    have hall := renameLoop_eq_none fs dest (fs.length + 1) 1 hloop
    classical
    set L : List FsPath :=
      (List.range (fs.length + 1)).map (fun i => renameCandidate dest (i + 1)) with hL
    have hnodup : L.Nodup := by
      refine List.Nodup.map ?_ (List.nodup_range _)
      intro a b hab
      have := renameCandidate_injective dest hab
      omega
    have hsub : L ⊆ fs.map (fun en => en.path) := by
      intro p hp
      rw [hL, List.mem_map] at hp
      obtain ⟨i, hi, rfl⟩ := hp
      rw [List.mem_range] at hi
      have := hall (i + 1) (by omega) (by omega)
      rw [existsPath_iff] at this
      obtain ⟨en, hen, henp⟩ := this
      rw [List.mem_map]
      exact ⟨en, hen, henp⟩
    have hcard1 : L.toFinset.card = L.length := List.toFinset_card_of_nodup hnodup
    have hlen : L.length = fs.length + 1 := by simp [hL]
    have hsub2 : L.toFinset ⊆ (fs.map (fun en => en.path)).toFinset := by
      intro p hp
      rw [List.mem_toFinset] at hp ⊢
      exact hsub hp
    have hcard2 := Finset.card_le_card hsub2
    have hcard3 := List.toFinset_card_le (fs.map (fun en => en.path))
    rw [hcard1, hlen] at hcard2
    simp at hcard3
    omega

/-- Which child deletions keep an entry: a directory child takes its whole
subtree with it, a file child only itself. -/
def keepsEntry (child en : FsEntry) : Prop :=
  if child.isDir then ¬ (child.path <+: en.path) else en.path ≠ child.path

instance (child en : FsEntry) : Decidable (keepsEntry child en) := by
  unfold keepsEntry
  split <;> infer_instance

/-- Membership after folding child deletions: an entry survives iff it was
present and no deletion hits it. -/
theorem mem_foldl_removeChildEntry (cs : List FsEntry) :
    ∀ (fs : Fs) (en : FsEntry),
      en ∈ cs.foldl removeChildEntry fs ↔ en ∈ fs ∧ ∀ c ∈ cs, keepsEntry c en := by
  induction cs with
  | nil => intro fs en; simp
  | cons c cs ih =>
    intro fs en
    rw [List.foldl_cons, ih]
    constructor
    · rintro ⟨h1, h2⟩
      unfold removeChildEntry at h1
      by_cases hdir : c.isDir
      · rw [if_pos hdir, List.mem_filter] at h1
        refine ⟨h1.1, ?_⟩
        intro d hd
        rcases List.mem_cons.mp hd with rfl | hd'
        · unfold keepsEntry
          rw [if_pos hdir]
          simpa using h1.2
        · exact h2 d hd'
      · rw [if_neg hdir, List.mem_filter] at h1
        refine ⟨h1.1, ?_⟩
        intro d hd
        rcases List.mem_cons.mp hd with rfl | hd'
        · unfold keepsEntry
          rw [if_neg hdir]
          simpa using h1.2
        · exact h2 d hd'
    · rintro ⟨h1, h2⟩
      have hc := h2 c (List.mem_cons_self c cs)
      refine ⟨?_, fun d hd => h2 d (List.mem_cons_of_mem c hd)⟩
      unfold removeChildEntry
      unfold keepsEntry at hc
      by_cases hdir : c.isDir
      · rw [if_pos hdir] at hc ⊢
        rw [List.mem_filter]
        exact ⟨h1, by simpa using hc⟩
      · rw [if_neg hdir] at hc ⊢
        rw [List.mem_filter]
        exact ⟨h1, by simpa using hc⟩

/-- An entry surviving `clearContents` was already present. -/
theorem mem_of_mem_clearContents {fs : Fs} {dest : FsPath} {en : FsEntry}
    (h : en ∈ clearContents fs dest) : en ∈ fs :=
  ((mem_foldl_removeChildEntry _ _ _).mp h).1

/-- Every entry added by `mkdirParents` is a directory. -/
theorem mem_mkdirParents {fs : Fs} {dest : FsPath} {en : FsEntry}
    (h : en ∈ mkdirParents fs dest) : en ∈ fs ∨ en.isDir = true := by
  unfold mkdirParents at h
  rcases List.mem_append.mp h with h1 | h1
  · exact Or.inl h1
  · right
    rw [List.mem_map] at h1
    obtain ⟨q, _, rfl⟩ := h1
    rfl

/-- After `mkdirParents fs dest` with `dest` nonempty, `dest` exists. -/
theorem existsPath_mkdirParents_self (fs : Fs) (dest : FsPath) (hne : dest ≠ []) :
    existsPath (mkdirParents fs dest) dest = true := by
  rw [existsPath_iff]
  by_cases hex : existsPath fs dest = true
  · rw [existsPath_iff] at hex
    obtain ⟨en, hen, henp⟩ := hex
    exact ⟨en, List.mem_append.mpr (Or.inl hen), henp⟩
  · refine ⟨FsEntry.mk dest true, ?_, rfl⟩
    unfold mkdirParents
    rw [List.mem_append]
    right
    rw [List.mem_map]
    refine ⟨dest, ?_, rfl⟩
    rw [List.mem_filter]
    constructor
    · rw [List.mem_inits]
    · simp only [Bool.and_eq_true, Bool.not_eq_true']
      constructor
      · simpa [List.isEmpty_iff] using hne
      · simpa using hex

/-! ### Claim theorems -/

/-- C2: for every archive file name, the derived stem strips the longest
known extension suffix matching case-insensitively. With the extension
list sorted by decreasing length (as `SUPPORTED_EXTENSIONS` is) and free of
the empty extension, whenever some known extension matches the lowercased
file name, `archive_stem` picks a matching extension of maximal length and
returns the name with exactly that suffix stripped. -/
theorem archive_stem_strips_longest (exts : List Str) (path : FsPath)
    (hsort : exts.Pairwise (fun a b => b.length ≤ a.length))
    (hnil : [] ∉ exts)
    (hmatch : ∃ x ∈ exts, x.isSuffixOf ((path.getLastD []).map Char.toLower) = true) :
    ∃ e ∈ exts,
      e.isSuffixOf ((path.getLastD []).map Char.toLower) = true ∧
      (∀ e2 ∈ exts, e2.isSuffixOf ((path.getLastD []).map Char.toLower) = true →
        e2.length ≤ e.length) ∧
      archive_stem exts path =
        (path.getLastD []).take ((path.getLastD []).length - e.length) ∧
      path.getLastD [] =
        archive_stem exts path ++ (path.getLastD []).drop ((path.getLastD []).length - e.length) ∧
      ((path.getLastD []).drop ((path.getLastD []).length - e.length)).map Char.toLower = e := by
  have hsome : (exts.find? (fun e =>
      e.isSuffixOf ((path.getLastD []).map Char.toLower))).isSome := by
    rw [List.find?_isSome]
    obtain ⟨x, hx, hpx⟩ := hmatch
    exact ⟨x, hx, hpx⟩
  obtain ⟨e0, he0⟩ := Option.isSome_iff_exists.mp hsome
  obtain ⟨hpe0, as, bs, hsplit, hearlier⟩ := List.find?_eq_some.mp he0
  have he0mem : e0 ∈ exts := by rw [hsplit]; simp
  have he0ne : e0 ≠ [] := fun h => hnil (h ▸ he0mem)
  have hlongest : ∀ e2 ∈ exts,
      e2.isSuffixOf ((path.getLastD []).map Char.toLower) = true →
      e2.length ≤ e0.length := by
    intro e2 he2 hpe2
    rw [hsplit] at he2 hsort
    rcases List.mem_append.mp he2 with h2 | h2
    · have hne := hearlier e2 h2
      rw [Bool.not_eq_true'] at hne
      rw [hne] at hpe2
      exact absurd hpe2 (by simp)
    · rcases List.mem_cons.mp h2 with rfl | h2
      · exact Nat.le_refl _
      · have := (List.pairwise_append.mp hsort).2.1
        exact (List.pairwise_cons.mp this).1 e2 h2
  obtain ⟨t, ht⟩ := List.isSuffixOf_iff_suffix.mp hpe0
  have hlent : t.length = (path.getLastD []).length - e0.length := by
    have h1 : t.length + e0.length = ((path.getLastD []).map Char.toLower).length := by
      rw [← ht, List.length_append]
    rw [List.length_map] at h1
    omega
  have hstem : archive_stem exts path =
      (path.getLastD []).take ((path.getLastD []).length - e0.length) := by
    simp only [archive_stem, he0]
    unfold pySliceUptoNeg
    rw [if_neg (by simpa [List.length_eq_zero] using he0ne)]
  refine ⟨e0, he0mem, hpe0, hlongest, hstem, ?_, ?_⟩
  · rw [hstem, List.take_append_drop]
  · rw [List.map_drop, ← ht, List.drop_left' hlent]

/-- Witness for C2, the example of the spec: with known extensions
".tar.gz" and ".gz" (in the length-sorted order of `SUPPORTED_EXTENSIONS`),
the stem of "data.tar.gz" is "data", not "data.tar". -/
theorem archive_stem_strips_longest_witness :
    (([['.','t','a','r','.','g','z'], ['.','g','z']] : List Str).Pairwise
      (fun a b => b.length ≤ a.length)) ∧
    ([] ∉ ([['.','t','a','r','.','g','z'], ['.','g','z']] : List Str)) ∧
    (∃ x ∈ ([['.','t','a','r','.','g','z'], ['.','g','z']] : List Str),
      x.isSuffixOf ((([['d','a','t','a','.','t','a','r','.','g','z']] : FsPath).getLastD
        []).map Char.toLower) = true) ∧
    (∃ e ∈ ([['.','t','a','r','.','g','z'], ['.','g','z']] : List Str),
      e.isSuffixOf ((([['d','a','t','a','.','t','a','r','.','g','z']] : FsPath).getLastD
        []).map Char.toLower) = true ∧
      (∀ e2 ∈ ([['.','t','a','r','.','g','z'], ['.','g','z']] : List Str),
        e2.isSuffixOf ((([['d','a','t','a','.','t','a','r','.','g','z']] : FsPath).getLastD
          []).map Char.toLower) = true →
        e2.length ≤ e.length) ∧
      archive_stem [['.','t','a','r','.','g','z'], ['.','g','z']]
          [['d','a','t','a','.','t','a','r','.','g','z']] =
        (([['d','a','t','a','.','t','a','r','.','g','z']] : FsPath).getLastD []).take
          ((([['d','a','t','a','.','t','a','r','.','g','z']] : FsPath).getLastD
            []).length - e.length) ∧
      ([['d','a','t','a','.','t','a','r','.','g','z']] : FsPath).getLastD [] =
        archive_stem [['.','t','a','r','.','g','z'], ['.','g','z']]
            [['d','a','t','a','.','t','a','r','.','g','z']] ++
          (([['d','a','t','a','.','t','a','r','.','g','z']] : FsPath).getLastD []).drop
            ((([['d','a','t','a','.','t','a','r','.','g','z']] : FsPath).getLastD
              []).length - e.length) ∧
      ((([['d','a','t','a','.','t','a','r','.','g','z']] : FsPath).getLastD []).drop
          ((([['d','a','t','a','.','t','a','r','.','g','z']] : FsPath).getLastD
            []).length - e.length)).map Char.toLower = e) ∧
    archive_stem [['.','t','a','r','.','g','z'], ['.','g','z']]
        [['d','a','t','a','.','t','a','r','.','g','z']] = ['d','a','t','a'] :=
  ⟨by decide, by decide, by decide,
    archive_stem_strips_longest
      [['.','t','a','r','.','g','z'], ['.','g','z']]
      [['d','a','t','a','.','t','a','r','.','g','z']]
      (by decide) (by decide) (by decide),
    by decide⟩

/-- The path comparison is transitive. -/
theorem pathLe_trans (a b c : FsPath) (h1 : pathLe a b) (h2 : pathLe b c) :
    pathLe a c := by
  simp only [pathLe, decide_eq_true_eq] at h1 h2 ⊢
  exact le_trans h1 h2

/-- The path comparison is total. -/
theorem pathLe_total (a b : FsPath) : pathLe a b || pathLe b a := by
  simp only [pathLe]
  rcases le_total (joinPath a) (joinPath b) with h | h <;> simp [h]

/-- C3: discovery returns exactly the regular files among the glob results
that carry a known archive extension (case-insensitively), as a
permutation-free characterization: the result is sorted lexicographically
by path string, is a permutation of the filtered glob output, a path is in
the result iff some glob entry is a matching regular file with that path,
and the result is empty (not an error) when nothing matches. -/
theorem collect_archives_spec (exts : List Str) (globbed : List DirEntry) :
    (collect_archives exts globbed).Pairwise (fun p q => joinPath p ≤ joinPath q) ∧
    (collect_archives exts globbed).Perm
      (((globbed.filter (fun en => en.isFile)).filter
        (fun en => hasArchiveSuffix exts en.path)).map (fun en => en.path)) ∧
    (∀ p, p ∈ collect_archives exts globbed ↔
      ∃ en ∈ globbed, en.isFile = true ∧ hasArchiveSuffix exts en.path = true ∧
        en.path = p) ∧
    ((∀ en ∈ globbed, en.isFile = false ∨ hasArchiveSuffix exts en.path = false) →
      collect_archives exts globbed = []) := by
  have hmem : ∀ p, p ∈ collect_archives exts globbed ↔
      ∃ en ∈ globbed, en.isFile = true ∧ hasArchiveSuffix exts en.path = true ∧
        en.path = p := by
    intro p
    unfold collect_archives
    rw [List.mem_mergeSort, List.mem_map]
    constructor
    · rintro ⟨en, hen, rfl⟩
      rw [List.mem_filter] at hen
      obtain ⟨hen1, hen2⟩ := hen
      rw [List.mem_filter] at hen1
      exact ⟨en, hen1.1, hen1.2, hen2, rfl⟩
    · rintro ⟨en, hen, hfile, hsuf, rfl⟩
      refine ⟨en, ?_, rfl⟩
      rw [List.mem_filter, List.mem_filter]
      exact ⟨⟨hen, hfile⟩, hsuf⟩
  refine ⟨?_, ?_, hmem, ?_⟩
  · have hs := @List.sorted_mergeSort FsPath pathLe
      (fun a b c => pathLe_trans a b c) pathLe_total
      (((globbed.filter (fun en => en.isFile)).filter
        (fun en => hasArchiveSuffix exts en.path)).map (fun en => en.path))
    exact List.Pairwise.imp (fun h => by
      simpa only [pathLe, decide_eq_true_eq] using h) hs
  · exact List.mergeSort_perm _ _
  · intro hnone
    rw [List.eq_nil_iff_forall_not_mem]
    intro p hp
    obtain ⟨en, hen, hfile, hsuf, _⟩ := (hmem p).mp hp
    rcases hnone en hen with h | h
    · rw [hfile] at h; cases h
    · rw [hsuf] at h; cases h

/-- Witness for C3 at a concrete glob result: a zip file, an uppercase-ZIP
file, a directory named like an archive, and a plain text file; only the
two archives survive, in sorted order. -/
theorem collect_archives_spec_witness :
    (collect_archives [['.','z','i','p']]
      [DirEntry.mk [['d'], ['b','.','Z','I','P']] true,
       DirEntry.mk [['d'], ['a','.','z','i','p']] true,
       DirEntry.mk [['d'], ['c','.','z','i','p']] false,
       DirEntry.mk [['d'], ['n','o','t','e','s','.','t','x','t']] true]).Pairwise
        (fun p q => joinPath p ≤ joinPath q) ∧
    (∀ p, p ∈ collect_archives [['.','z','i','p']]
      [DirEntry.mk [['d'], ['b','.','Z','I','P']] true,
       DirEntry.mk [['d'], ['a','.','z','i','p']] true,
       DirEntry.mk [['d'], ['c','.','z','i','p']] false,
       DirEntry.mk [['d'], ['n','o','t','e','s','.','t','x','t']] true] ↔
      ∃ en ∈ [DirEntry.mk [['d'], ['b','.','Z','I','P']] true,
       DirEntry.mk [['d'], ['a','.','z','i','p']] true,
       DirEntry.mk [['d'], ['c','.','z','i','p']] false,
       DirEntry.mk [['d'], ['n','o','t','e','s','.','t','x','t']] true],
        en.isFile = true ∧ hasArchiveSuffix [['.','z','i','p']] en.path = true ∧
        en.path = p) :=
  ⟨(collect_archives_spec [['.','z','i','p']]
      [DirEntry.mk [['d'], ['b','.','Z','I','P']] true,
       DirEntry.mk [['d'], ['a','.','z','i','p']] true,
       DirEntry.mk [['d'], ['c','.','z','i','p']] false,
       DirEntry.mk [['d'], ['n','o','t','e','s','.','t','x','t']] true]).1,
   (collect_archives_spec [['.','z','i','p']]
      [DirEntry.mk [['d'], ['b','.','Z','I','P']] true,
       DirEntry.mk [['d'], ['a','.','z','i','p']] true,
       DirEntry.mk [['d'], ['c','.','z','i','p']] false,
       DirEntry.mk [['d'], ['n','o','t','e','s','.','t','x','t']] true]).2.2.1⟩

/-- C4: under the `rename` policy with an existing destination, the
resolver returns the sibling `<dest>_<N>` for the smallest `N ≥ 1` whose
candidate does not exist, and creates it. -/
theorem ensure_destination_rename (fs : Fs) (dest : FsPath)
    (hex : existsPath fs dest = true) :
    ∃ N, 1 ≤ N ∧
      existsPath fs (renameCandidate dest N) = false ∧
      (∀ m, 1 ≤ m → m < N → existsPath fs (renameCandidate dest m) = true) ∧
      ensure_destination fs dest Policy.rename =
        (some (renameCandidate dest N), mkdirParents fs (renameCandidate dest N)) ∧
      existsPath (mkdirParents fs (renameCandidate dest N))
        (renameCandidate dest N) = true := by
  have hsome := renameLoop_isSome fs dest
  obtain ⟨r, hr⟩ := Option.isSome_iff_exists.mp hsome
  obtain ⟨n, hn1, _, rfl, hfree, hbusy⟩ := renameLoop_eq_some fs dest _ _ _ hr
  refine ⟨n, hn1, hfree, fun m hm1 hm2 => hbusy m hm1 hm2, ?_, ?_⟩
  · unfold ensure_destination
    rw [hex]
    rw [if_neg (by simp), hr]
  · exact existsPath_mkdirParents_self fs _ (by simp [renameCandidate])

/-- Witness for C4, the example of the spec: destination "out" with "out"
and "out_1" existing resolves to a fresh "out_2". -/
theorem ensure_destination_rename_witness :
    existsPath [FsEntry.mk [['o','u','t']] true, FsEntry.mk [['o','u','t','_','1']] true]
      [['o','u','t']] = true ∧
    (∃ N, 1 ≤ N ∧
      existsPath [FsEntry.mk [['o','u','t']] true, FsEntry.mk [['o','u','t','_','1']] true]
        (renameCandidate [['o','u','t']] N) = false ∧
      (∀ m, 1 ≤ m → m < N →
        existsPath [FsEntry.mk [['o','u','t']] true, FsEntry.mk [['o','u','t','_','1']] true]
          (renameCandidate [['o','u','t']] m) = true) ∧
      ensure_destination [FsEntry.mk [['o','u','t']] true,
          FsEntry.mk [['o','u','t','_','1']] true] [['o','u','t']] Policy.rename =
        (some (renameCandidate [['o','u','t']] N),
          mkdirParents [FsEntry.mk [['o','u','t']] true,
            FsEntry.mk [['o','u','t','_','1']] true] (renameCandidate [['o','u','t']] N)) ∧
      existsPath (mkdirParents [FsEntry.mk [['o','u','t']] true,
          FsEntry.mk [['o','u','t','_','1']] true] (renameCandidate [['o','u','t']] N))
        (renameCandidate [['o','u','t']] N) = true) ∧
    (ensure_destination [FsEntry.mk [['o','u','t']] true,
        FsEntry.mk [['o','u','t','_','1']] true] [['o','u','t']] Policy.rename).1 =
      some [['o','u','t','_','2']] :=
  ⟨by decide,
   ensure_destination_rename
     [FsEntry.mk [['o','u','t']] true, FsEntry.mk [['o','u','t','_','1']] true]
     [['o','u','t']] (by decide),
   by decide⟩

/-- C5: under the `overwrite` policy with an existing non-empty destination
directory, resolution keeps the destination itself, empties it (every
strict descendant of the destination is deleted), and returns it for
extraction. The filesystem is assumed well-formed: ancestors of present
nodes are present, and regular files have no descendants. -/
theorem ensure_destination_overwrite (fs : Fs) (dest : FsPath)
    (hclosed : ∀ en ∈ fs, ∀ q ∈ en.path.inits, q ≠ [] → ∃ en2 ∈ fs, en2.path = q)
    (hfile : ∀ en ∈ fs, en.isDir = false →
      ∀ en2 ∈ fs, en.path <+: en2.path → en2.path = en.path)
    (hex : existsPath fs dest = true)
    (hnonempty : ∃ en ∈ fs, dest <+: en.path ∧ en.path ≠ dest) :
    ensure_destination fs dest Policy.overwrite = (some dest, clearContents fs dest) ∧
    existsPath (clearContents fs dest) dest = true ∧
    (∀ en ∈ clearContents fs dest, dest <+: en.path → en.path = dest) := by
  refine ⟨?_, ?_, ?_⟩
  · unfold ensure_destination
    rw [hex]
    rw [if_neg (by simp)]
  · rw [existsPath_iff] at hex ⊢
    obtain ⟨en0, hen0, hen0p⟩ := hex
    refine ⟨en0, ?_, hen0p⟩
    rw [clearContents, mem_foldl_removeChildEntry]
    refine ⟨hen0, ?_⟩
    intro c hc
    rw [childrenOf, List.mem_filter] at hc
    obtain ⟨hcfs, hcond⟩ := hc
    rw [Bool.and_eq_true, decide_eq_true_eq, decide_eq_true_eq] at hcond
    unfold keepsEntry
    split
    · intro habs
      have := habs.length_le
      rw [hen0p] at this
      omega
    · intro habs
      rw [hen0p] at habs
      have : c.path.length = dest.length := by rw [← habs]
      omega
  · intro en hen hpre
    by_contra hne
    rw [clearContents, mem_foldl_removeChildEntry] at hen
    obtain ⟨henfs, hkeep⟩ := hen
    obtain ⟨t, ht⟩ := hpre
    have htne : t ≠ [] := by
      intro h
      rw [h, List.append_nil] at ht
      exact hne ht.symm
    obtain ⟨c0, t', rfl⟩ := List.exists_cons_of_ne_nil htne
    have hq : (dest ++ [c0]) <+: en.path := ⟨t', by rw [← ht]; simp⟩
    have hqmem : (dest ++ [c0]) ∈ en.path.inits := List.mem_inits _ _ |>.mpr hq
    have hqne : dest ++ [c0] ≠ [] := by simp
    obtain ⟨en2, hen2fs, hen2p⟩ := hclosed en henfs (dest ++ [c0]) hqmem hqne
    have hen2child : en2 ∈ childrenOf fs dest := by
      rw [childrenOf, List.mem_filter]
      refine ⟨hen2fs, ?_⟩
      rw [Bool.and_eq_true, decide_eq_true_eq, decide_eq_true_eq]
      constructor
      · rw [hen2p]; simp
      · rw [hen2p]; exact ⟨[c0], rfl⟩
    have hk := hkeep en2 hen2child
    unfold keepsEntry at hk
    rcases hdir : en2.isDir with hfalse | htrue
    · rw [hdir] at hk
      rw [if_neg (by decide)] at hk
      have := hfile en2 hen2fs hdir en henfs (by rw [hen2p]; exact hq)
      exact hk this
    · rw [hdir] at hk
      rw [if_pos rfl] at hk
      rw [hen2p] at hk
      exact hk hq

/-- Witness for C5 at a concrete filesystem: "out" contains a file "a", a
directory "b" and a nested file "b/c"; after overwrite resolution "out"
survives with no descendants. -/
theorem ensure_destination_overwrite_witness :
    (∀ en ∈ [FsEntry.mk [['o','u','t']] true, FsEntry.mk [['o','u','t'], ['a']] false,
        FsEntry.mk [['o','u','t'], ['b']] true, FsEntry.mk [['o','u','t'], ['b'], ['c']] false],
      ∀ q ∈ en.path.inits, q ≠ [] →
        ∃ en2 ∈ [FsEntry.mk [['o','u','t']] true, FsEntry.mk [['o','u','t'], ['a']] false,
          FsEntry.mk [['o','u','t'], ['b']] true,
          FsEntry.mk [['o','u','t'], ['b'], ['c']] false], en2.path = q) ∧
    existsPath [FsEntry.mk [['o','u','t']] true, FsEntry.mk [['o','u','t'], ['a']] false,
        FsEntry.mk [['o','u','t'], ['b']] true, FsEntry.mk [['o','u','t'], ['b'], ['c']] false]
      [['o','u','t']] = true ∧
    ensure_destination [FsEntry.mk [['o','u','t']] true,
        FsEntry.mk [['o','u','t'], ['a']] false, FsEntry.mk [['o','u','t'], ['b']] true,
        FsEntry.mk [['o','u','t'], ['b'], ['c']] false] [['o','u','t']] Policy.overwrite =
      (some [['o','u','t']],
        clearContents [FsEntry.mk [['o','u','t']] true,
          FsEntry.mk [['o','u','t'], ['a']] false, FsEntry.mk [['o','u','t'], ['b']] true,
          FsEntry.mk [['o','u','t'], ['b'], ['c']] false] [['o','u','t']]) ∧
    existsPath (clearContents [FsEntry.mk [['o','u','t']] true,
        FsEntry.mk [['o','u','t'], ['a']] false, FsEntry.mk [['o','u','t'], ['b']] true,
        FsEntry.mk [['o','u','t'], ['b'], ['c']] false] [['o','u','t']])
      [['o','u','t']] = true ∧
    (∀ en ∈ clearContents [FsEntry.mk [['o','u','t']] true,
        FsEntry.mk [['o','u','t'], ['a']] false, FsEntry.mk [['o','u','t'], ['b']] true,
        FsEntry.mk [['o','u','t'], ['b'], ['c']] false] [['o','u','t']],
      [['o','u','t']] <+: en.path → en.path = [['o','u','t']]) :=
  ⟨by decide, by decide,
   (ensure_destination_overwrite
     [FsEntry.mk [['o','u','t']] true, FsEntry.mk [['o','u','t'], ['a']] false,
      FsEntry.mk [['o','u','t'], ['b']] true, FsEntry.mk [['o','u','t'], ['b'], ['c']] false]
     [['o','u','t']] (by decide) (by decide) (by decide)
     ⟨FsEntry.mk [['o','u','t'], ['a']] false, by decide, by decide, by decide⟩).1,
   (ensure_destination_overwrite
     [FsEntry.mk [['o','u','t']] true, FsEntry.mk [['o','u','t'], ['a']] false,
      FsEntry.mk [['o','u','t'], ['b']] true, FsEntry.mk [['o','u','t'], ['b'], ['c']] false]
     [['o','u','t']] (by decide) (by decide) (by decide)
     ⟨FsEntry.mk [['o','u','t'], ['a']] false, by decide, by decide, by decide⟩).2.1,
   (ensure_destination_overwrite
     [FsEntry.mk [['o','u','t']] true, FsEntry.mk [['o','u','t'], ['a']] false,
      FsEntry.mk [['o','u','t'], ['b']] true, FsEntry.mk [['o','u','t'], ['b'], ['c']] false]
     [['o','u','t']] (by decide) (by decide) (by decide)
     ⟨FsEntry.mk [['o','u','t'], ['a']] false, by decide, by decide, by decide⟩).2.2⟩

/-- When the current policy is not `ask`, resolution never prompts: it is
exactly `ensure_destination` under the current policy, with the policy and
prompt index unchanged. -/
theorem handle_existing_dest_of_ne_ask (prompts : Nat → Choice) (fs : Fs) (k : Nat)
    (dest : FsPath) (p : Policy) (h : p ≠ Policy.ask) :
    handle_existing_dest prompts fs k dest p =
      ((ensure_destination fs dest p).1, p, (ensure_destination fs dest p).2, k) := by
  unfold handle_existing_dest
  rw [if_pos (Or.inr h)]

/-- The loop body always adopts the policy and prompt index returned by
`handle_existing_dest`. -/
theorem stepArchive_policy (exts : List Str) (extractor : Extractor)
    (prompts : Nat → Choice) (plan : ExtractionPlan) (s : BatchState) (a : FsPath) :
    (stepArchive exts extractor prompts plan s a).policy =
      (handle_existing_dest prompts s.fs s.promptIdx
        (plan.output_dir ++ [archive_stem exts a]) s.policy).2.1 ∧
    (stepArchive exts extractor prompts plan s a).promptIdx =
      (handle_existing_dest prompts s.fs s.promptIdx
        (plan.output_dir ++ [archive_stem exts a]) s.policy).2.2.2 := by
  simp only [stepArchive]
  constructor
  · split
    · rfl
    · split
      · rfl
      · split <;> rfl
  · split
    · rfl
    · split
      · rfl
      · split <;> rfl

/-- A non-`ask` policy survives one loop iteration untouched, and no prompt
is consumed. -/
theorem stepArchive_of_ne_ask (exts : List Str) (extractor : Extractor)
    (prompts : Nat → Choice) (plan : ExtractionPlan) (s : BatchState) (a : FsPath)
    (h : s.policy ≠ Policy.ask) :
    (stepArchive exts extractor prompts plan s a).policy = s.policy ∧
    (stepArchive exts extractor prompts plan s a).promptIdx = s.promptIdx := by
  have hp := stepArchive_policy exts extractor prompts plan s a
  rw [handle_existing_dest_of_ne_ask prompts s.fs s.promptIdx _ s.policy h] at hp
  simpa using hp

/-- A non-`ask` policy survives the whole remaining run, with the prompt
index frozen. -/
theorem extract_archives_of_ne_ask (exts : List Str) (extractor : Extractor)
    (prompts : Nat → Choice) (plan : ExtractionPlan) :
    ∀ (archives : List FsPath) (s : BatchState), s.policy ≠ Policy.ask →
      (extract_archives exts extractor prompts plan s archives).policy = s.policy ∧
      (extract_archives exts extractor prompts plan s archives).promptIdx = s.promptIdx := by
  intro archives
  induction archives with
  | nil => intro s _; exact ⟨rfl, rfl⟩
  | cons a rest ih =>
    intro s h
    have hstep := stepArchive_of_ne_ask exts extractor prompts plan s a h
    have hne : (stepArchive exts extractor prompts plan s a).policy ≠ Policy.ask := by
      rw [hstep.1]; exact h
    have hrest := ih (stepArchive exts extractor prompts plan s a) hne
    unfold extract_archives at hrest ⊢
    rw [List.foldl_cons]
    rw [hrest.1, hrest.2, hstep.1, hstep.2]
    exact ⟨rfl, rfl⟩

/-- Each loop iteration increments exactly one of the three counters. -/
theorem stepArchive_counts (exts : List Str) (extractor : Extractor)
    (prompts : Nat → Choice) (plan : ExtractionPlan) (s : BatchState) (a : FsPath) :
    (stepArchive exts extractor prompts plan s a).extracted +
      (stepArchive exts extractor prompts plan s a).skipped +
      (stepArchive exts extractor prompts plan s a).failed =
    s.extracted + s.skipped + s.failed + 1 := by
  simp only [stepArchive]
  split
  · simp only []
    omega
  · split
    · simp only []
      omega
    · split
      · simp only []
        omega
      · simp only []
        omega

/-- Entries in the filesystem after `ensure_destination` were already
present or are directories (only `mkdir` adds nodes). -/
theorem mem_ensure_destination_fs {fs : Fs} {dest : FsPath} {p : Policy} {en : FsEntry}
    (h : en ∈ (ensure_destination fs dest p).2) : en ∈ fs ∨ en.isDir = true := by
  unfold ensure_destination at h
  by_cases hex : existsPath fs dest = false
  · rw [if_pos hex] at h
    exact mem_mkdirParents h
  · rw [if_neg hex] at h
    cases p with
    | ask => exact Or.inl h
    | skip => exact Or.inl h
    | overwrite => exact Or.inl (mem_of_mem_clearContents h)
    | rename =>
      rcases hloop : renameLoop fs dest (fs.length + 1) 1 with _ | c
      · rw [hloop] at h
        exact Or.inl h
      · rw [hloop] at h
        exact mem_mkdirParents h

/-- Entries in the filesystem after `handle_existing_dest` were already
present or are directories. -/
theorem mem_handle_existing_dest_fs {prompts : Nat → Choice} {fs : Fs} {k : Nat}
    {dest : FsPath} {p : Policy} {en : FsEntry}
    (h : en ∈ (handle_existing_dest prompts fs k dest p).2.2.1) :
    en ∈ fs ∨ en.isDir = true := by
  unfold handle_existing_dest at h
  by_cases hc : existsPath fs dest = false ∨ p ≠ Policy.ask
  · rw [if_pos hc] at h
    exact mem_ensure_destination_fs h
  · rw [if_neg hc] at h
    by_cases hall : (prompts k).isAll
    · rw [if_pos hall] at h
      exact mem_ensure_destination_fs h
    · rw [if_neg hall] at h
      exact mem_ensure_destination_fs h

/-- C9: every iteration of the batch loop increments exactly one of the
three counters, so after the run `extracted + skipped + failed` has grown by
exactly the number of archives processed. -/
theorem extract_archives_counts (exts : List Str) (extractor : Extractor)
    (prompts : Nat → Choice) (plan : ExtractionPlan) :
    ∀ (archives : List FsPath) (s : BatchState),
      (extract_archives exts extractor prompts plan s archives).extracted +
        (extract_archives exts extractor prompts plan s archives).skipped +
        (extract_archives exts extractor prompts plan s archives).failed =
      s.extracted + s.skipped + s.failed + archives.length := by
  intro archives
  induction archives with
  | nil => intro s; simp [extract_archives]
  | cons a rest ih =>
    intro s
    unfold extract_archives at ih ⊢
    rw [List.foldl_cons]
    rw [ih (stepArchive exts extractor prompts plan s a)]
    have := stepArchive_counts exts extractor prompts plan s a
    simp only [List.length_cons]
    omega

/-- Witness for C9: a two-archive run on an empty filesystem accounts for
both archives in the counters. -/
theorem extract_archives_counts_witness :
    (extract_archives [] (fun _ _ f => (true, f)) (fun _ => Choice.skip)
        (ExtractionPlan.mk [['i']] [['o']] false Policy.ask false ['*'])
        (BatchState.mk 0 0 0 Policy.ask [] 0 0)
        [[['a','.','z','i','p']], [['b','.','z','i','p']]]).extracted +
      (extract_archives [] (fun _ _ f => (true, f)) (fun _ => Choice.skip)
        (ExtractionPlan.mk [['i']] [['o']] false Policy.ask false ['*'])
        (BatchState.mk 0 0 0 Policy.ask [] 0 0)
        [[['a','.','z','i','p']], [['b','.','z','i','p']]]).skipped +
      (extract_archives [] (fun _ _ f => (true, f)) (fun _ => Choice.skip)
        (ExtractionPlan.mk [['i']] [['o']] false Policy.ask false ['*'])
        (BatchState.mk 0 0 0 Policy.ask [] 0 0)
        [[['a','.','z','i','p']], [['b','.','z','i','p']]]).failed = 0 + 0 + 0 + 2 :=
  extract_archives_counts [] (fun _ _ f => (true, f)) (fun _ => Choice.skip)
    (ExtractionPlan.mk [['i']] [['o']] false Policy.ask false ['*'])
    [[['a','.','z','i','p']], [['b','.','z','i','p']]]
    (BatchState.mk 0 0 0 Policy.ask [] 0 0)

/-- C7: outside dry-run, when the destination resolves to a concrete path,
a failing extraction increments exactly `failed`, a successful one exactly
`extracted`, and in both cases the loop goes on to the remaining archives
(processing `a :: rest` is processing `a`, then `rest`). -/
theorem extractor_failure_isolated (exts : List Str) (extractor : Extractor)
    (prompts : Nat → Choice) (plan : ExtractionPlan) (s : BatchState)
    (a : FsPath) (rest : List FsPath) (hdry : plan.dry_run = false) :
    (∀ d, (handle_existing_dest prompts s.fs s.promptIdx
        (plan.output_dir ++ [archive_stem exts a]) s.policy).1 = some d →
      (extractor a d (handle_existing_dest prompts s.fs s.promptIdx
        (plan.output_dir ++ [archive_stem exts a]) s.policy).2.2.1).1 = false →
      (stepArchive exts extractor prompts plan s a).failed = s.failed + 1 ∧
      (stepArchive exts extractor prompts plan s a).extracted = s.extracted ∧
      (stepArchive exts extractor prompts plan s a).skipped = s.skipped) ∧
    (∀ d, (handle_existing_dest prompts s.fs s.promptIdx
        (plan.output_dir ++ [archive_stem exts a]) s.policy).1 = some d →
      (extractor a d (handle_existing_dest prompts s.fs s.promptIdx
        (plan.output_dir ++ [archive_stem exts a]) s.policy).2.2.1).1 = true →
      (stepArchive exts extractor prompts plan s a).extracted = s.extracted + 1 ∧
      (stepArchive exts extractor prompts plan s a).failed = s.failed ∧
      (stepArchive exts extractor prompts plan s a).skipped = s.skipped) ∧
    extract_archives exts extractor prompts plan s (a :: rest) =
      extract_archives exts extractor prompts plan
        (stepArchive exts extractor prompts plan s a) rest := by
  refine ⟨?_, ?_, rfl⟩
  · intro d hd hf
    simp only [stepArchive, hd, hdry]
    simp [hf]
  · intro d hd ht
    simp only [stepArchive, hd, hdry]
    simp [ht]

/-- Witness for C7: one archive, a fresh destination, an extractor that
always fails; the step records exactly one failure. -/
theorem extractor_failure_isolated_witness :
    (ExtractionPlan.mk [['i']] [['o']] false Policy.ask false ['*']).dry_run = false ∧
    (handle_existing_dest (fun _ => Choice.skip) [] 0
      ((ExtractionPlan.mk [['i']] [['o']] false Policy.ask false ['*']).output_dir ++
        [archive_stem [] [['a','.','z','i','p']]]) Policy.ask).1 =
      some [['o'], ['a']] ∧
    (stepArchive [] (fun _ _ f => (false, f)) (fun _ => Choice.skip)
      (ExtractionPlan.mk [['i']] [['o']] false Policy.ask false ['*'])
      (BatchState.mk 0 0 0 Policy.ask [] 0 0) [['a','.','z','i','p']]).failed = 0 + 1 :=
  ⟨rfl, by decide,
    ((extractor_failure_isolated [] (fun _ _ f => (false, f)) (fun _ => Choice.skip)
      (ExtractionPlan.mk [['i']] [['o']] false Policy.ask false ['*'])
      (BatchState.mk 0 0 0 Policy.ask [] 0 0) [['a','.','z','i','p']] [] rfl).1
      [['o'], ['a']] (by decide) (by decide)).1⟩

/-- In dry-run mode one iteration never touches the extractor or the
failure counter, keeps the filesystem produced by destination resolution,
counts a `Use` decision as extracted, and a skip decision as skipped. -/
theorem stepArchive_dry (exts : List Str) (extractor : Extractor)
    (prompts : Nat → Choice) (plan : ExtractionPlan) (t : BatchState) (a : FsPath)
    (hdry : plan.dry_run = true) :
    (stepArchive exts extractor prompts plan t a).extractorCalls = t.extractorCalls ∧
    (stepArchive exts extractor prompts plan t a).failed = t.failed ∧
    (stepArchive exts extractor prompts plan t a).fs =
      (handle_existing_dest prompts t.fs t.promptIdx
        (plan.output_dir ++ [archive_stem exts a]) t.policy).2.2.1 ∧
    ((handle_existing_dest prompts t.fs t.promptIdx
        (plan.output_dir ++ [archive_stem exts a]) t.policy).1 ≠ none →
      (stepArchive exts extractor prompts plan t a).extracted = t.extracted + 1 ∧
      (stepArchive exts extractor prompts plan t a).skipped = t.skipped) ∧
    ((handle_existing_dest prompts t.fs t.promptIdx
        (plan.output_dir ++ [archive_stem exts a]) t.policy).1 = none →
      (stepArchive exts extractor prompts plan t a).skipped = t.skipped + 1 ∧
      (stepArchive exts extractor prompts plan t a).extracted = t.extracted) := by
  rcases hh : (handle_existing_dest prompts t.fs t.promptIdx
      (plan.output_dir ++ [archive_stem exts a]) t.policy).1 with _ | d
  · simp [stepArchive, hh]
  · simp [stepArchive, hh, hdry]

/-- C6: a dry run never invokes the extractor, leaves `failed` untouched,
counts every processed archive as extracted or skipped (extracted exactly
when its destination resolved to a concrete path), and adds no regular
files to the filesystem. -/
theorem dry_run_frame (exts : List Str) (extractor : Extractor)
    (prompts : Nat → Choice) (plan : ExtractionPlan) (hdry : plan.dry_run = true) :
    ∀ (archives : List FsPath) (s : BatchState),
      (extract_archives exts extractor prompts plan s archives).extractorCalls =
        s.extractorCalls ∧
      (extract_archives exts extractor prompts plan s archives).failed = s.failed ∧
      (extract_archives exts extractor prompts plan s archives).extracted +
        (extract_archives exts extractor prompts plan s archives).skipped =
        s.extracted + s.skipped + archives.length ∧
      (∀ en ∈ (extract_archives exts extractor prompts plan s archives).fs,
        en.isDir = false → en ∈ s.fs) ∧
      (∀ (t : BatchState) (a : FsPath),
        ((handle_existing_dest prompts t.fs t.promptIdx
            (plan.output_dir ++ [archive_stem exts a]) t.policy).1 ≠ none →
          (stepArchive exts extractor prompts plan t a).extracted = t.extracted + 1) ∧
        ((handle_existing_dest prompts t.fs t.promptIdx
            (plan.output_dir ++ [archive_stem exts a]) t.policy).1 = none →
          (stepArchive exts extractor prompts plan t a).skipped = t.skipped + 1)) := by
  intro archives
  induction archives with
  | nil =>
    intro s
    refine ⟨rfl, rfl, by simp [extract_archives], fun en h _ => h, ?_⟩
    intro t a
    have hstep := stepArchive_dry exts extractor prompts plan t a hdry
    exact ⟨fun h => (hstep.2.2.2.1 h).1, fun h => (hstep.2.2.2.2 h).1⟩
  | cons a rest ih =>
    intro s
    have hstep := stepArchive_dry exts extractor prompts plan s a hdry
    have hrest := ih (stepArchive exts extractor prompts plan s a)
    have hcount : (stepArchive exts extractor prompts plan s a).extracted +
        (stepArchive exts extractor prompts plan s a).skipped =
        s.extracted + s.skipped + 1 := by
      rcases hh : (handle_existing_dest prompts s.fs s.promptIdx
          (plan.output_dir ++ [archive_stem exts a]) s.policy).1 with _ | d
      · have := hstep.2.2.2.2 hh
        omega
      · have := hstep.2.2.2.1 (by rw [hh]; exact Option.some_ne_none d)
        omega
    have hrun : extract_archives exts extractor prompts plan s (a :: rest) =
        extract_archives exts extractor prompts plan
          (stepArchive exts extractor prompts plan s a) rest := rfl
    refine ⟨?_, ?_, ?_, ?_, hrest.2.2.2.2⟩
    · rw [hrun, hrest.1, hstep.1]
    · rw [hrun, hrest.2.1, hstep.2.1]
    · rw [hrun, hrest.2.2.1]
      simp only [List.length_cons]
      omega
    · intro en hen hdir
      rw [hrun] at hen
      have h1 := hrest.2.2.2.1 en hen hdir
      rw [hstep.2.2.1] at h1
      rcases mem_handle_existing_dest_fs h1 with h2 | h2
      · exact h2
      · rw [hdir] at h2; cases h2

/-- Witness for C6: a dry run over two fresh archives counts both as
extracted, with no failures and no extractor calls. -/
theorem dry_run_frame_witness :
    (ExtractionPlan.mk [['i']] [['o']] false Policy.ask true ['*']).dry_run = true ∧
    (extract_archives [] (fun _ _ f => (true, f)) (fun _ => Choice.skip)
        (ExtractionPlan.mk [['i']] [['o']] false Policy.ask true ['*'])
        (BatchState.mk 0 0 0 Policy.ask [] 0 0)
        [[['a','.','z','i','p']], [['b','.','z','i','p']]]).extractorCalls = 0 ∧
    (extract_archives [] (fun _ _ f => (true, f)) (fun _ => Choice.skip)
        (ExtractionPlan.mk [['i']] [['o']] false Policy.ask true ['*'])
        (BatchState.mk 0 0 0 Policy.ask [] 0 0)
        [[['a','.','z','i','p']], [['b','.','z','i','p']]]).failed = 0 ∧
    (extract_archives [] (fun _ _ f => (true, f)) (fun _ => Choice.skip)
        (ExtractionPlan.mk [['i']] [['o']] false Policy.ask true ['*'])
        (BatchState.mk 0 0 0 Policy.ask [] 0 0)
        [[['a','.','z','i','p']], [['b','.','z','i','p']]]).extracted +
      (extract_archives [] (fun _ _ f => (true, f)) (fun _ => Choice.skip)
        (ExtractionPlan.mk [['i']] [['o']] false Policy.ask true ['*'])
        (BatchState.mk 0 0 0 Policy.ask [] 0 0)
        [[['a','.','z','i','p']], [['b','.','z','i','p']]]).skipped = 0 + 0 + 2 := by
  have h := dry_run_frame [] (fun _ _ f => (true, f)) (fun _ => Choice.skip)
    (ExtractionPlan.mk [['i']] [['o']] false Policy.ask true ['*']) rfl
    [[['a','.','z','i','p']], [['b','.','z','i','p']]]
    (BatchState.mk 0 0 0 Policy.ask [] 0 0)
  exact ⟨rfl, h.1, h.2.1, h.2.2.1⟩

/-- No prompt answer denotes the `ask` policy. -/
theorem Choice.base_ne_ask (c : Choice) : c.base ≠ Policy.ask := by
  cases c <;> simp [Choice.base]

/-- C1: choosing a `-all` escalation at a colliding item under `ask`
replaces the effective policy by the corresponding base policy for the rest
of the run: the step adopts the base policy, every later iteration keeps it
and consumes no further prompt, a non-`ask` policy resolves purely through
`ensure_destination`, after `skip-all` every later colliding item is
skipped untouched, and items processed before the escalation are already
folded into the state (processing `pre ++ post` is processing `pre`, then
`post` from the reached state). -/
theorem ask_escalation_persists (exts : List Str) (extractor : Extractor)
    (prompts : Nat → Choice) (plan : ExtractionPlan) (s : BatchState) (a : FsPath)
    (hask : s.policy = Policy.ask)
    (hcol : existsPath s.fs (plan.output_dir ++ [archive_stem exts a]) = true)
    (hall : (prompts s.promptIdx).isAll = true) :
    (stepArchive exts extractor prompts plan s a).policy = (prompts s.promptIdx).base ∧
    (stepArchive exts extractor prompts plan s a).promptIdx = s.promptIdx + 1 ∧
    (∀ rest, (extract_archives exts extractor prompts plan
        (stepArchive exts extractor prompts plan s a) rest).policy =
          (prompts s.promptIdx).base ∧
      (extract_archives exts extractor prompts plan
        (stepArchive exts extractor prompts plan s a) rest).promptIdx =
          s.promptIdx + 1) ∧
    (∀ (t : BatchState) (b : FsPath), t.policy ≠ Policy.ask →
      handle_existing_dest prompts t.fs t.promptIdx
          (plan.output_dir ++ [archive_stem exts b]) t.policy =
        ((ensure_destination t.fs (plan.output_dir ++ [archive_stem exts b]) t.policy).1,
          t.policy,
          (ensure_destination t.fs (plan.output_dir ++ [archive_stem exts b]) t.policy).2,
          t.promptIdx)) ∧
    ((prompts s.promptIdx).base = Policy.skip →
      ∀ (t : BatchState) (b : FsPath), t.policy = Policy.skip →
        existsPath t.fs (plan.output_dir ++ [archive_stem exts b]) = true →
        (stepArchive exts extractor prompts plan t b).skipped = t.skipped + 1 ∧
        (stepArchive exts extractor prompts plan t b).fs = t.fs ∧
        (stepArchive exts extractor prompts plan t b).promptIdx = t.promptIdx) ∧
    (∀ (pre post : List FsPath) (t : BatchState),
      extract_archives exts extractor prompts plan t (pre ++ post) =
        extract_archives exts extractor prompts plan
          (extract_archives exts extractor prompts plan t pre) post) := by
  have hh : handle_existing_dest prompts s.fs s.promptIdx
      (plan.output_dir ++ [archive_stem exts a]) s.policy =
    ((ensure_destination s.fs (plan.output_dir ++ [archive_stem exts a])
        (prompts s.promptIdx).base).1,
      (prompts s.promptIdx).base,
      (ensure_destination s.fs (plan.output_dir ++ [archive_stem exts a])
        (prompts s.promptIdx).base).2,
      s.promptIdx + 1) := by
    unfold handle_existing_dest
    rw [if_neg ?_, if_pos hall]
    rintro (h1 | h2)
    · rw [hcol] at h1; cases h1
    · exact h2 hask
  have hpol := stepArchive_policy exts extractor prompts plan s a
  rw [hh] at hpol
  have hpol1 : (stepArchive exts extractor prompts plan s a).policy =
      (prompts s.promptIdx).base := by simpa using hpol.1
  have hpol2 : (stepArchive exts extractor prompts plan s a).promptIdx =
      s.promptIdx + 1 := by simpa using hpol.2
  refine ⟨hpol1, hpol2, ?_, ?_, ?_, ?_⟩
  · intro rest
    have hne : (stepArchive exts extractor prompts plan s a).policy ≠ Policy.ask := by
      rw [hpol1]; exact Choice.base_ne_ask _
    have h := extract_archives_of_ne_ask exts extractor prompts plan rest
      (stepArchive exts extractor prompts plan s a) hne
    rw [hpol1] at h
    rw [hpol2] at h
    exact h
  · intro t b ht
    exact handle_existing_dest_of_ne_ask prompts t.fs t.promptIdx _ t.policy ht
  · intro _ t b ht hexb
    have h1 := handle_existing_dest_of_ne_ask prompts t.fs t.promptIdx
      (plan.output_dir ++ [archive_stem exts b]) t.policy (by rw [ht]; intro h; cases h)
    rw [ht] at h1
    have he : ensure_destination t.fs (plan.output_dir ++ [archive_stem exts b])
        Policy.skip = (none, t.fs) := by
      unfold ensure_destination
      rw [hexb, if_neg (by simp)]
    rw [he] at h1
    simp only [stepArchive, ht, h1]
    simp
  · intro pre post t
    unfold extract_archives
    exact List.foldl_append _ _ _ _

/-- Witness for C1: with the destination already present and a scripted
prompter answering "skip-all", the step switches the run to the `skip`
policy. -/
theorem ask_escalation_persists_witness :
    (BatchState.mk 0 0 0 Policy.ask [FsEntry.mk [['o'], ['a']] true] 0 0).policy =
      Policy.ask ∧
    existsPath (BatchState.mk 0 0 0 Policy.ask [FsEntry.mk [['o'], ['a']] true] 0 0).fs
      ((ExtractionPlan.mk [['i']] [['o']] false Policy.ask false ['*']).output_dir ++
        [archive_stem [] [['a','.','z','i','p']]]) = true ∧
    ((fun _ => Choice.skipAll)
      (BatchState.mk 0 0 0 Policy.ask [FsEntry.mk [['o'], ['a']] true] 0 0).promptIdx).isAll
      = true ∧
    (stepArchive [] (fun _ _ f => (true, f)) (fun _ => Choice.skipAll)
      (ExtractionPlan.mk [['i']] [['o']] false Policy.ask false ['*'])
      (BatchState.mk 0 0 0 Policy.ask [FsEntry.mk [['o'], ['a']] true] 0 0)
      [['a','.','z','i','p']]).policy =
        ((fun _ => Choice.skipAll)
          (BatchState.mk 0 0 0 Policy.ask [FsEntry.mk [['o'], ['a']] true] 0 0).promptIdx).base :=
  ⟨rfl, by decide, rfl,
    (ask_escalation_persists [] (fun _ _ f => (true, f)) (fun _ => Choice.skipAll)
      (ExtractionPlan.mk [['i']] [['o']] false Policy.ask false ['*'])
      (BatchState.mk 0 0 0 Policy.ask [FsEntry.mk [['o'], ['a']] true] 0 0)
      [['a','.','z','i','p']] rfl (by decide) rfl).1⟩

/-- C8: the process exit status is 2 when the source directory is missing
(with no extractor call made), 0 when no archives are found, and otherwise
1 exactly when the final failed count is non-zero. -/
theorem mainRun_exit (exts : List Str) (extractor : Extractor)
    (prompts : Nat → Choice) (plan : ExtractionPlan) (fs0 : Fs)
    (globbed : List DirEntry) :
    (existsPath fs0 plan.input_dir = false →
      (mainRun exts extractor prompts plan fs0 globbed).1 = 2 ∧
      (mainRun exts extractor prompts plan fs0 globbed).2.extractorCalls = 0) ∧
    (existsPath fs0 plan.input_dir = true → collect_archives exts globbed = [] →
      (mainRun exts extractor prompts plan fs0 globbed).1 = 0) ∧
    (existsPath fs0 plan.input_dir = true → collect_archives exts globbed ≠ [] →
      (mainRun exts extractor prompts plan fs0 globbed).1 =
        (if (mainRun exts extractor prompts plan fs0 globbed).2.failed = 0
          then 0 else 1)) := by
  by_cases hex : existsPath fs0 plan.input_dir = false
  · refine ⟨fun _ => ?_, fun h1 _ => ?_, fun h1 _ => ?_⟩
    · simp [mainRun, hex]
      rfl
    · rw [hex] at h1; cases h1
    · rw [hex] at h1; cases h1
  · by_cases harch : collect_archives exts globbed = []
    · refine ⟨fun h => absurd h hex, fun _ _ => ?_, fun _ hne => absurd harch hne⟩
      simp [mainRun, hex, harch]
    · refine ⟨fun h => absurd h hex, fun _ h => absurd h harch, fun _ _ => ?_⟩
      have hne : (collect_archives exts globbed).isEmpty = false := by
        rcases hE : (collect_archives exts globbed).isEmpty with _ | _
        · rfl
        · exact absurd (List.isEmpty_iff.mp hE) harch
      simp [mainRun, hex, hne]

/-- Witness for C8: with a missing input directory the exit status is 2 and
the extractor is never consulted. -/
theorem mainRun_exit_witness :
    existsPath [] (ExtractionPlan.mk [['i']] [['o']] false Policy.ask false
      ['*']).input_dir = false ∧
    (mainRun [] (fun _ _ f => (true, f)) (fun _ => Choice.skip)
      (ExtractionPlan.mk [['i']] [['o']] false Policy.ask false ['*']) [] []).1 = 2 ∧
    (mainRun [] (fun _ _ f => (true, f)) (fun _ => Choice.skip)
      (ExtractionPlan.mk [['i']] [['o']] false Policy.ask false ['*'])
      [] []).2.extractorCalls = 0 :=
  ⟨rfl,
    (mainRun_exit [] (fun _ _ f => (true, f)) (fun _ => Choice.skip)
      (ExtractionPlan.mk [['i']] [['o']] false Policy.ask false ['*']) [] []).1 rfl⟩

/-- C10: every path returned by `collect_archives` carries a known archive
extension on its lowercased name, so `archive_stem` resolves it through the
extension-stripping branch, never through the `path.stem` fallback. -/
theorem collect_archives_no_fallback (exts : List Str) (globbed : List DirEntry)
    (p : FsPath) (hmem : p ∈ collect_archives exts globbed) :
    (∃ x ∈ exts, x.isSuffixOf ((p.getLastD []).map Char.toLower) = true) ∧
    (exts.find? (fun e => e.isSuffixOf ((p.getLastD []).map Char.toLower))).isSome
      = true ∧
    ∃ e0, exts.find? (fun e => e.isSuffixOf ((p.getLastD []).map Char.toLower))
        = some e0 ∧
      archive_stem exts p = pySliceUptoNeg (p.getLastD []) e0.length := by
  have hx : hasArchiveSuffix exts p = true := by
    unfold collect_archives at hmem
    rw [List.mem_mergeSort, List.mem_map] at hmem
    obtain ⟨en, hen, rfl⟩ := hmem
    rw [List.mem_filter] at hen
    exact hen.2
  rw [hasArchiveSuffix, List.any_eq_true] at hx
  obtain ⟨x, hx1, hx2⟩ := hx
  have hsome : (exts.find? (fun e =>
      e.isSuffixOf ((p.getLastD []).map Char.toLower))).isSome = true := by
    rw [List.find?_isSome]
    exact ⟨x, hx1, hx2⟩
  obtain ⟨e0, he0⟩ := Option.isSome_iff_exists.mp hsome
  refine ⟨⟨x, hx1, hx2⟩, hsome, e0, he0, ?_⟩
  simp only [archive_stem, he0]

unseal List.merge List.mergeSort in
/-- Witness for C10: the single discovered archive "a.zip" has a known
suffix and its stem is computed by stripping, not by the fallback. -/
theorem collect_archives_no_fallback_witness :
    [['a','.','z','i','p']] ∈ collect_archives [['.','z','i','p']]
      [DirEntry.mk [['a','.','z','i','p']] true] ∧
    ((∃ x ∈ ([['.','z','i','p']] : List Str),
      x.isSuffixOf ((([['a','.','z','i','p']] : FsPath).getLastD []).map Char.toLower)
        = true) ∧
    (([['.','z','i','p']] : List Str).find? (fun e =>
      e.isSuffixOf ((([['a','.','z','i','p']] : FsPath).getLastD []).map
        Char.toLower))).isSome = true ∧
    ∃ e0, ([['.','z','i','p']] : List Str).find? (fun e =>
        e.isSuffixOf ((([['a','.','z','i','p']] : FsPath).getLastD []).map
          Char.toLower)) = some e0 ∧
      archive_stem [['.','z','i','p']] [['a','.','z','i','p']] =
        pySliceUptoNeg (([['a','.','z','i','p']] : FsPath).getLastD []) e0.length) :=
  ⟨by decide,
    collect_archives_no_fallback [['.','z','i','p']]
      [DirEntry.mk [['a','.','z','i','p']] true] [['a','.','z','i','p']] (by decide)⟩

end UnzipCx
